import Mathlib

/-
  Verification of the line-rewriting core of `lib/env_file.py` (an Ansible
  module reading and writing POSIX shell files containing variable
  assignments).

  Lines are modelled as `List Char` (the Python module works on the list of
  strings returned by `readlines()`).  The regex-based classifiers
  `match_var`, `match_active_var` and `is_exported` are translated into
  executable matchers with the exact semantics of the source's anchored
  Python patterns (`re.match`, where `$` accepts the end of the string or a
  single final newline, `.` never matches a newline, and the variable name
  is inserted through `re.escape`, i.e. matched literally).

  The file-system handling of `apply` (reading the target, diff reporting,
  backup, atomic move) is out of scope per the specification; the embedding
  `apply` below covers the pure transformation from the line sequence read
  from the file to the written line sequence, together with the `changed`
  flag and message.  The source's statement `ini_lines[-1] += '\n'` (line
  128) refers to a name that is never defined, so the branch normalising a
  missing final newline raises `NameError`; the embedding returns `none` in
  exactly that situation.
-/

namespace EnvFile

/-- Python regex `\s` on the characters relevant here (ASCII whitespace). -/
def isSpace (c : Char) : Bool :=
  c = ' ' || c = '\t' || c = '\n' || c = '\r' || c = '\x0b' || c = '\x0c'

/-- Semantics of the regex tail `.*$` under `re.match`: any run of
non-newline characters, then either the end of the string or one final
newline. -/
def dotStarEnd : List Char → Bool
  | [] => true
  | c :: rest => if c = '\n' then rest.isEmpty else dotStarEnd rest

/-- Semantics of the regex tail `.+$`: one non-newline character followed by
`.*$`. -/
def dotPlusEnd : List Char → Bool
  | [] => false
  | c :: rest => if c = '\n' then false else dotStarEnd rest

/-- Semantics of `\s*X`: some (possibly empty) run of leading whitespace is
consumed, then the continuation `p` matches; all split points are tried,
like regex backtracking. -/
def afterSpaces (p : List Char → Bool) : List Char → Bool
  | [] => p []
  | c :: rest => p (c :: rest) || (isSpace c && afterSpaces p rest)

/-- Semantics of `\s+X`: at least one whitespace character, then `\s*X`. -/
def afterSpaces1 (p : List Char → Bool) : List Char → Bool
  | [] => false
  | c :: rest => isSpace c && afterSpaces p rest

/-- Semantics of `#?X`: the continuation may or may not consume one leading
`#`. -/
def optHash (p : List Char → Bool) (l : List Char) : Bool :=
  p l || (match l with
          | '#' :: rest => p rest
          | _ => false)

/-- The literal keyword `export` used by all three source patterns. -/
def exportKw : List Char := "export".data

/-- Semantics of `NAME=.*$` with `NAME` the `re.escape`d variable name:
the literal name, a literal `=`, then `.*$`. -/
def matchAssign (name l : List Char) : Bool :=
  (name ++ ['=']).isPrefixOf l && dotStarEnd (l.drop (name.length + 1))

/-- Semantics of `export\s+NAME=.*$`. -/
def exportThen (p : List Char → Bool) (r : List Char) : Bool :=
  exportKw.isPrefixOf r && afterSpaces1 p (r.drop 6)

/-- Source `match_var(name, line)`: matches a declaration with the given
name, commented out or not; the disjunction of the two anchored patterns
`^\s*#?\s*NAME=.*$` and `^\s*#?\s*export\s+NAME=.*$`. -/
def match_var (name line : List Char) : Bool :=
  afterSpaces (optHash (afterSpaces (matchAssign name))) line ||
  afterSpaces (optHash (afterSpaces (exportThen (matchAssign name)))) line

/-- Source `match_active_var(name, line)`: matches a declaration with the
given name as long as it is not commented out; the disjunction of
`^\s*NAME=.*$` and `^\s*export\s+NAME=.*$`. -/
def match_active_var (name line : List Char) : Bool :=
  afterSpaces (matchAssign name) line ||
  afterSpaces (exportThen (matchAssign name)) line

/-- Body of the source `is_exported(line)` pattern after the leading
whitespace: `export\s*.+$`. -/
def exportLoose (r : List Char) : Bool :=
  exportKw.isPrefixOf r && afterSpaces dotPlusEnd (r.drop 6)

/-- Source `is_exported(line)`: the anchored pattern `^\s*export\s*.+$`.
Note the `\s*` after `export`: the keyword need not be followed by
whitespace. -/
def is_exported (line : List Char) : Bool :=
  afterSpaces exportLoose line

/-- The 4-character replacement `'\''` used for embedded single quotes. -/
def quoteRep : List Char := "'\\''".data

/-- Python `text.replace("'", "'\\''")`: every single quote is replaced by
the 4-character sequence `quoteRep` (a one-character pattern, so
non-overlapping occurrence replacement is a per-character map). -/
def pyReplaceQuote : List Char → List Char
  | [] => []
  | c :: rest => (if c = '\'' then quoteRep else [c]) ++ pyReplaceQuote rest

/-- Source `shell_escape(text)`.  The module first tries `shlex.quote`,
which does not exist on Python 2 (the module's declared target: the
`/usr/bin/python` shebang and the `ansible.module_utils.six` import); the
bare `except` then selects the fallback `"'%s'" % text.replace("'",
"'\\''")`, which is also the behaviour the specification mandates
(Modelled here; on Python 3 the `shlex.quote` branch would instead leave
strings made only of safe characters unquoted). -/
def shell_escape (text : List Char) : List Char :=
  '\'' :: pyReplaceQuote text ++ ['\'']

/-- The four values of the module's `state` option.  `loc` renders the
source's `'local'` (a Lean keyword). -/
inductive VarState
  | present
  | absent
  | loc
  | exported
  deriving DecidableEq

/-- Result of the core transformation: the new line sequence, the `changed`
flag, and the message (`''`, `'var removed'`, `'var changed'` or
`'var added'`). -/
structure ApplyResult where
  lines : List (List Char)
  changed : Bool
  msg : List Char
  deriving DecidableEq

/-- Python `env_lines[-1]` of a non-empty list (the default is never
reached by `apply`, which guards against the empty list first). -/
def lastLine : List (List Char) → List Char
  | [] => []
  | [l] => l
  | _ :: l :: rest => lastLine (l :: rest)

/-- Whether a line is non-empty and ends in `'\n'`; the negation of the
source's crash condition `env_lines[-1] == "" or env_lines[-1][-1] != '\n'`. -/
def lastCharIsNewline : List Char → Bool
  | [] => false
  | [c] => c = '\n'
  | _ :: c :: rest => lastCharIsNewline (c :: rest)

/-- The `state == 'absent'` arm of the source's scan: delete the first line
matching `match_active_var`, set `changed` and the message, and stop. -/
def scanAbsent (var : List Char) : List (List Char) → List (List Char) × Bool × List Char
  | [] => ([], false, [])
  | l :: rest =>
    if match_active_var var l then (rest, true, "var removed".data)
    else
      match scanAbsent var rest with
      | (ls, ch, m) => (l :: ls, ch, m)

/-- Lines 146-151 of the source: the replacement for a matched line.
`should_export = (state == 'exported') or (state == 'present' and
is_exported(line))`, and `'export '` is prepended when it holds. -/
def new_line_for (state : VarState) (line line_value : List Char) : List Char :=
  let should_export :=
    match state with
    | VarState.exported => true
    | VarState.present => is_exported line
    | _ => false
  if should_export then "export ".data ++ line_value else line_value

/-- The source's duplicate-cleanup `while` loop, which walks the suffix
after the replaced line and deletes every line matching
`match_active_var` (deleting keeps the index in place, otherwise the index
advances — i.e. a filter over that suffix). -/
def deleteActive (var : List Char) (ls : List (List Char)) : List (List Char) :=
  ls.filter (fun l => !match_active_var var l)

/-- The non-`absent` arm of the source's scan: find the first line matching
`match_var`, replace it with `new_line_for`, and if the replacement
differs from the original (`var_changed`) delete all later active
duplicates; `none` when no line matches (the caller then appends). -/
def scanUpdate (var line_value : List Char) (state : VarState) :
    List (List Char) → Option (List (List Char) × Bool × List Char)
  | [] => none
  | l :: rest =>
    if match_var var l then
      let new_line := new_line_for state l line_value
      if l = new_line then some (new_line :: rest, false, [])
      else some (new_line :: deleteActive var rest, true, "var changed".data)
    else
      match scanUpdate var line_value state rest with
      | some (ls, ch, m) => some (l :: ls, ch, m)
      | none => none

/-- The transformation applied by the source after the empty-file guard and
the trailing-newline guard have passed. -/
def applyCore (env_lines : List (List Char)) (var val : List Char) (state : VarState) :
    ApplyResult :=
  let line_value := var ++ '=' :: (shell_escape val ++ ['\n'])
  match state with
  | VarState.absent =>
    match scanAbsent var env_lines with
    | (ls, ch, m) => ⟨ls, ch, m⟩
  | _ =>
    match scanUpdate var line_value state env_lines with
    | some (ls, ch, m) => ⟨ls, ch, m⟩
    | none =>
      ⟨env_lines ++ [if state = VarState.loc then line_value
                     else "export ".data ++ line_value],
       true, "var added".data⟩

/-- The line-rewriting core of the source's `apply`: guard against an empty
file by starting from a single `"\n"` line, then — if the last line is
empty or does not end in `'\n'` — the source executes
`ini_lines[-1] += '\n'`, where `ini_lines` is an undefined name, raising
`NameError`; this is modelled by `none`.  Otherwise the scan runs: delete
(`absent`), replace plus duplicate cleanup, or append. -/
def apply (lines0 : List (List Char)) (var val : List Char) (state : VarState) :
    Option ApplyResult :=
  let env_lines := if lines0.isEmpty then [['\n']] else lines0
  if lastCharIsNewline (lastLine env_lines) then
    some (applyCore env_lines var val state)
  else
    none

/-- The replacement (or appended) declaration line exactly as the
specification words it: `"<name>=<shellEscape(value)>\n"`, prefixed with
`"export "` when the state is `exported`, or the state is `present` and
the matched line was `is_exported`. -/
def newDeclLine (state : VarState) (matchedLine var val : List Char) : List Char :=
  (if state = VarState.exported ∨ (state = VarState.present ∧ is_exported matchedLine = true)
   then "export ".data else []) ++ (var ++ '=' :: (shell_escape val ++ ['\n']))

/-- Definition modelled from the words of the claim about `is_exported`:
true exactly when the line, after stripping leading whitespace, begins
with the keyword `export` followed by at least one whitespace character. -/
def isExported_claimed (line : List Char) : Bool :=
  exportKw.isPrefixOf (line.dropWhile isSpace) &&
    (match (line.dropWhile isSpace).drop 6 with
     | c :: _ => isSpace c
     | [] => false)

/-- The rule `is_exported` actually implements, phrased without the
backtracking combinators: after stripping leading whitespace the line
begins with `export`, followed by optional whitespace and then at least
one further character, with no newline before a final one. -/
def isExported_actual (line : List Char) : Bool :=
  exportKw.isPrefixOf (line.dropWhile isSpace) &&
    afterSpaces dotPlusEnd ((line.dropWhile isSpace).drop 6)

-- Sanity checks of the embedding against the source's regex semantics
-- (kept as compiled examples; each was cross-checked against CPython).
example : match_var "FOO".data "FOO=1\n".data = true := by decide
example : match_var "FOO".data "  #  export  FOO=1\n".data = true := by decide
example : match_var "FOO".data "# FOO=1".data = true := by decide
example : match_var "FOO".data "FOO =1\n".data = false := by decide
example : match_var "FOO".data "XFOO=1\n".data = false := by decide
example : match_var "FOO".data "FOO=a\nb\n".data = false := by decide
example : match_active_var "FOO".data "#FOO=1\n".data = false := by decide
example : match_active_var "FOO".data " export FOO=1\n".data = true := by decide
example : is_exported "  export FOO=1\n".data = true := by decide
example : is_exported "exportFOO=1\n".data = true := by decide
example : is_exported "export\n".data = false := by decide
example : is_exported "#export FOO=1\n".data = false := by decide
example : shell_escape "it's".data = "'it'\\''s'".data := by decide
example : apply ["FOO=old\n".data] "FOO".data "new".data VarState.present
    = some ⟨["FOO='new'\n".data], true, "var changed".data⟩ := by decide
example : apply ["export FOO=old\n".data] "FOO".data "new".data VarState.present
    = some ⟨["export FOO='new'\n".data], true, "var changed".data⟩ := by decide
example : apply ["FOO=old\n".data] "FOO".data "new".data VarState.exported
    = some ⟨["export FOO='new'\n".data], true, "var changed".data⟩ := by decide
example : apply ["export FOO=old\n".data] "FOO".data "new".data VarState.loc
    = some ⟨["FOO='new'\n".data], true, "var changed".data⟩ := by decide
example : apply ["FOO=a\n".data, "FOO=b\n".data] "FOO".data [] VarState.absent
    = some ⟨["FOO=b\n".data], true, "var removed".data⟩ := by decide
example : apply ["FOO=old\n".data, "FOO=dup\n".data] "FOO".data "new".data VarState.present
    = some ⟨["FOO='new'\n".data], true, "var changed".data⟩ := by decide
example : apply ["#FOO=old\n".data] "FOO".data "new".data VarState.present
    = some ⟨["FOO='new'\n".data], true, "var changed".data⟩ := by decide
example : apply ["X=1\n".data] "FOO".data "bar".data VarState.present
    = some ⟨["X=1\n".data, "export FOO='bar'\n".data], true, "var added".data⟩ := by decide
example : apply ["FOO=1".data] "FOO".data "bar".data VarState.present = none := by decide

/-! ### Basic facts about the matching combinators -/

theorem afterSpaces_here (p : List Char → Bool) (l : List Char) (h : p l = true) :
    afterSpaces p l = true := by
  cases l with
  | nil => simpa [afterSpaces] using h
  | cons c rest => simp [afterSpaces, h]

theorem optHash_here (p : List Char → Bool) (l : List Char) (h : p l = true) :
    optHash p l = true := by
  simp [optHash, h]

theorem isPrefixOf_append_self (a b : List Char) : a.isPrefixOf (a ++ b) = true := by
  induction a with
  | nil => simp [List.isPrefixOf]
  | cons x xs ih => simp [List.isPrefixOf, ih]

theorem drop_len_append (a b : List Char) : (a ++ b).drop a.length = b := by
  induction a with
  | nil => simp
  | cons x xs ih => simp [ih]

theorem dotStarEnd_no_newline (l : List Char) (h : '\n' ∉ l) :
    dotStarEnd (l ++ ['\n']) = true := by
  induction l with
  | nil => rfl
  | cons c rest ih =>
    have hc : c ≠ '\n' := fun e => h (e ▸ List.mem_cons_self c rest)
    have hr : '\n' ∉ rest := fun m => h (List.mem_cons_of_mem c m)
    simp [dotStarEnd, hc, ih hr]

theorem pyReplaceQuote_no_newline (v : List Char) (h : '\n' ∉ v) :
    '\n' ∉ pyReplaceQuote v := by
  induction v with
  | nil => simp [pyReplaceQuote]
  | cons c rest ih =>
    have hc : c ≠ '\n' := fun e => h (e ▸ List.mem_cons_self c rest)
    have hr : '\n' ∉ rest := fun m => h (List.mem_cons_of_mem c m)
    simp only [pyReplaceQuote, List.mem_append]
    rintro (hL | hR)
    · by_cases hq : c = '\''
      · rw [if_pos hq] at hL
        exact absurd hL (by decide)
      · rw [if_neg hq] at hL
        simp at hL
        exact hc hL.symm
    · exact ih hr hR

theorem shell_escape_no_newline (v : List Char) (h : '\n' ∉ v) :
    '\n' ∉ shell_escape v := by
  intro hm
  rcases List.mem_cons.mp hm with h1 | hm2
  · exact absurd h1 (by decide)
  rcases List.mem_append.mp hm2 with h2 | h3
  · exact pyReplaceQuote_no_newline v h h2
  · exact absurd (List.mem_singleton.mp h3) (by decide)

theorem matchAssign_self (name rest : List Char) (h : dotStarEnd rest = true) :
    matchAssign name (name ++ '=' :: rest) = true := by
  have e : name ++ '=' :: rest = (name ++ ['=']) ++ rest := by simp
  have hl : name.length + 1 = (name ++ ['=']).length := by simp
  rw [matchAssign, e, isPrefixOf_append_self, hl, drop_len_append, h]
  rfl

theorem exportSpace_eq : "export ".data = exportKw ++ [' '] := by decide

theorem exportKw_len : exportKw.length = 6 := by decide

theorem exportThen_export_line (p : List Char → Bool) (x : List Char) (h : p x = true) :
    exportThen p ("export ".data ++ x) = true := by
  have e : "export ".data ++ x = exportKw ++ (' ' :: x) := by
    rw [exportSpace_eq, List.append_assoc]
    rfl
  rw [exportThen, e, isPrefixOf_append_self, ← exportKw_len, drop_len_append]
  simp [afterSpaces1, isSpace, afterSpaces_here p x h]

theorem match_var_plain (var esc : List Char) (he : '\n' ∉ esc) :
    match_var var (var ++ '=' :: (esc ++ ['\n'])) = true := by
  have h1 : matchAssign var (var ++ '=' :: (esc ++ ['\n'])) = true :=
    matchAssign_self var (esc ++ ['\n']) (dotStarEnd_no_newline esc he)
  have h4 := afterSpaces_here _ _ (optHash_here _ _ (afterSpaces_here _ _ h1))
  unfold match_var
  rw [h4]
  rfl

theorem match_var_export (var esc : List Char) (he : '\n' ∉ esc) :
    match_var var ("export ".data ++ (var ++ '=' :: (esc ++ ['\n']))) = true := by
  have h1 : matchAssign var (var ++ '=' :: (esc ++ ['\n'])) = true :=
    matchAssign_self var (esc ++ ['\n']) (dotStarEnd_no_newline esc he)
  have h2 := exportThen_export_line (matchAssign var) _ h1
  have h4 := afterSpaces_here _ _ (optHash_here _ _ (afterSpaces_here _ _ h2))
  unfold match_var
  rw [h4, Bool.or_true]

theorem match_active_var_plain (var esc : List Char) (he : '\n' ∉ esc) :
    match_active_var var (var ++ '=' :: (esc ++ ['\n'])) = true := by
  have h1 : matchAssign var (var ++ '=' :: (esc ++ ['\n'])) = true :=
    matchAssign_self var (esc ++ ['\n']) (dotStarEnd_no_newline esc he)
  unfold match_active_var
  rw [afterSpaces_here _ _ h1]
  rfl

theorem match_active_var_export (var esc : List Char) (he : '\n' ∉ esc) :
    match_active_var var ("export ".data ++ (var ++ '=' :: (esc ++ ['\n']))) = true := by
  have h1 : matchAssign var (var ++ '=' :: (esc ++ ['\n'])) = true :=
    matchAssign_self var (esc ++ ['\n']) (dotStarEnd_no_newline esc he)
  have h2 := exportThen_export_line (matchAssign var) _ h1
  unfold match_active_var
  rw [afterSpaces_here _ _ h2, Bool.or_true]

/-! ### The `is_exported` pattern through `dropWhile`, and its quirks -/

theorem afterSpaces_eq_dropWhile (p : List Char → Bool)
    (hp : ∀ c r, isSpace c = true → p (c :: r) = false) (l : List Char) :
    afterSpaces p l = p (l.dropWhile isSpace) := by
  induction l with
  | nil => rfl
  | cons c rest ih =>
    by_cases hc : isSpace c = true
    · simp [afterSpaces, hp c rest hc, hc, ih, List.dropWhile_cons]
    · have hc' : isSpace c = false := by simpa using hc
      simp [afterSpaces, hc', List.dropWhile_cons]

theorem exportKw_head : exportKw = 'e' :: "xport".data := by decide

theorem isPrefixOf_exportKw_space (c : Char) (r : List Char) (hc : isSpace c = true) :
    exportKw.isPrefixOf (c :: r) = false := by
  have hce : ('e' == c) = false := by
    cases hq : 'e' == c
    · rfl
    · have hcq : c = 'e' := (eq_of_beq hq).symm
      rw [hcq] at hc
      exact absurd hc (by decide)
  rw [exportKw_head]
  simp [List.isPrefixOf, hce]

theorem exportLoose_space (c : Char) (r : List Char) (hc : isSpace c = true) :
    exportLoose (c :: r) = false := by
  simp [exportLoose, isPrefixOf_exportKw_space c r hc]

theorem is_exported_eq_dropWhile (l : List Char) :
    is_exported l = exportLoose (l.dropWhile isSpace) :=
  afterSpaces_eq_dropWhile exportLoose (fun c r hc => exportLoose_space c r hc) l

theorem isPrefixOf_through_eq (kw : List Char) (hk : '=' ∉ kw) :
    ∀ (v rest : List Char), kw.isPrefixOf (v ++ '=' :: rest) = true →
      kw.isPrefixOf v = true := by
  induction kw with
  | nil => intro v rest _; cases v <;> rfl
  | cons k ks ih =>
    intro v rest h
    cases v with
    | nil =>
      exfalso
      rw [List.nil_append] at h
      have h' : ((k == '=') && ks.isPrefixOf rest) = true := h
      simp only [Bool.and_eq_true] at h'
      exact hk (by rw [← eq_of_beq h'.1]; exact List.mem_cons_self k ks)
    | cons a v' =>
      rw [List.cons_append] at h
      have h' : ((k == a) && ks.isPrefixOf (v' ++ '=' :: rest)) = true := h
      simp only [Bool.and_eq_true] at h'
      have h3 := ih (fun m => hk (List.mem_cons_of_mem k m)) v' rest h'.2
      show ((k == a) && ks.isPrefixOf v') = true
      rw [h'.1, h3]
      rfl

theorem is_exported_plain_false (var esc : List Char)
    (h : exportKw.isPrefixOf (var.dropWhile isSpace) = false) :
    is_exported (var ++ '=' :: esc) = false := by
  induction var with
  | nil =>
    have h1 : exportLoose ('=' :: esc) = false := by
      have hp : exportKw.isPrefixOf ('=' :: esc) = false := by
        rw [exportKw_head]
        simp [List.isPrefixOf]
      simp [exportLoose, hp]
    rw [List.nil_append, is_exported, afterSpaces, h1]
    simp [isSpace]
  | cons c var' ih =>
    by_cases hc : isSpace c = true
    · have hd : (c :: var').dropWhile isSpace = var'.dropWhile isSpace := by
        simp [List.dropWhile_cons, hc]
      rw [hd] at h
      have hrec := ih h
      rw [is_exported] at hrec ⊢
      rw [List.cons_append, afterSpaces, exportLoose_space c _ hc, hrec]
      simp
    · have hc' : isSpace c = false := by simpa using hc
      have hd : (c :: var').dropWhile isSpace = c :: var' := by
        simp [List.dropWhile_cons, hc']
      rw [hd] at h
      have hp : exportKw.isPrefixOf (c :: (var' ++ '=' :: esc)) = false := by
        cases hq : exportKw.isPrefixOf (c :: (var' ++ '=' :: esc))
        · rfl
        · have hq' : exportKw.isPrefixOf ((c :: var') ++ '=' :: esc) = true := by
            rw [List.cons_append]
            exact hq
          have h2 := isPrefixOf_through_eq exportKw (by decide) (c :: var') esc hq'
          rw [h2] at h
          exact Bool.noConfusion h
      have h1 : exportLoose (c :: (var' ++ '=' :: esc)) = false := by
        rw [exportLoose, hp]
        rfl
      rw [is_exported, List.cons_append, afterSpaces, h1, hc']
      rfl

theorem dotStarEnd_line (var esc : List Char) (hv : '\n' ∉ var) (he : '\n' ∉ esc) :
    dotStarEnd (var ++ '=' :: (esc ++ ['\n'])) = true := by
  have hno : '\n' ∉ var ++ '=' :: esc := by
    intro hm
    rcases List.mem_append.mp hm with h1 | h2
    · exact hv h1
    · rcases List.mem_cons.mp h2 with h3 | h4
      · exact absurd h3 (by decide)
      · exact he h4
  have := dotStarEnd_no_newline (var ++ '=' :: esc) hno
  simpa using this

theorem is_exported_export_line (var esc : List Char) (hv : '\n' ∉ var) (he : '\n' ∉ esc) :
    is_exported ("export ".data ++ (var ++ '=' :: (esc ++ ['\n']))) = true := by
  apply afterSpaces_here
  have e : "export ".data ++ (var ++ '=' :: (esc ++ ['\n']))
      = exportKw ++ (' ' :: (var ++ '=' :: (esc ++ ['\n']))) := by
    rw [exportSpace_eq, List.append_assoc]
    rfl
  rw [exportLoose, e, isPrefixOf_append_self, ← exportKw_len, drop_len_append]
  have hd : dotPlusEnd (' ' :: (var ++ '=' :: (esc ++ ['\n']))) = true := by
    rw [dotPlusEnd]
    simp [dotStarEnd_line var esc hv he]
  rw [afterSpaces_here _ _ hd]
  rfl

theorem is_exported_hash (m : List Char) (h : (m.dropWhile isSpace).head? = some '#') :
    is_exported m = false := by
  rw [is_exported_eq_dropWhile]
  cases hd : m.dropWhile isSpace with
  | nil => rw [hd] at h; simp at h
  | cons c r =>
    rw [hd] at h
    simp at h
    subst h
    have hp : exportKw.isPrefixOf ('#' :: r) = false := by
      rw [exportKw_head]
      simp [List.isPrefixOf]
    rw [exportLoose, hp]
    rfl

/-! ### Last-line helpers -/

theorem lastLine_mem (l : List (List Char)) (h : l ≠ []) : lastLine l ∈ l := by
  induction l with
  | nil => exact absurd rfl h
  | cons x rest ih =>
    cases rest with
    | nil => simp [lastLine]
    | cons y t => exact List.mem_cons_of_mem x (ih (by simp))

theorem lastChar_append_newline (x : List Char) : lastCharIsNewline (x ++ ['\n']) = true := by
  induction x with
  | nil => rfl
  | cons c rest ih =>
    cases rest with
    | nil => rfl
    | cons d t => simpa [lastCharIsNewline] using ih

theorem lastChar_concat (x y : List Char) (h : lastCharIsNewline y = true) :
    lastCharIsNewline (x ++ y) = true := by
  induction x with
  | nil => simpa using h
  | cons c rest ih =>
    have hy : y ≠ [] := by
      intro e
      rw [e] at h
      exact absurd h (by decide)
    cases e : rest ++ y with
    | nil =>
      exact absurd (List.append_eq_nil.mp e).2 hy
    | cons d t =>
      rw [List.cons_append, e, lastCharIsNewline, ← e]
      exact ih

/-! ### Characterisations of the two scans -/

theorem scanAbsent_split (var : List Char) (pre : List (List Char)) (m : List Char)
    (suf : List (List Char))
    (hpre : ∀ l ∈ pre, match_active_var var l = false)
    (hm : match_active_var var m = true) :
    scanAbsent var (pre ++ m :: suf) = (pre ++ suf, true, "var removed".data) := by
  induction pre with
  | nil => simp [scanAbsent, hm]
  | cons p ps ih =>
    have hp : match_active_var var p = false := hpre p (List.mem_cons_self p ps)
    have ih' := ih (fun l hl => hpre l (List.mem_cons_of_mem p hl))
    simp [scanAbsent, hp, ih']

theorem scanAbsent_clean (var : List Char) (ls : List (List Char))
    (hall : ∀ l ∈ ls, match_active_var var l = false) :
    scanAbsent var ls = (ls, false, []) := by
  induction ls with
  | nil => rfl
  | cons p ps ih =>
    have hp : match_active_var var p = false := hall p (List.mem_cons_self p ps)
    have ih' := ih (fun l hl => hall l (List.mem_cons_of_mem p hl))
    simp [scanAbsent, hp, ih']

theorem scanUpdate_split (var lv : List Char) (state : VarState)
    (pre : List (List Char)) (m : List Char) (suf : List (List Char))
    (hpre : ∀ l ∈ pre, match_var var l = false)
    (hm : match_var var m = true) :
    scanUpdate var lv state (pre ++ m :: suf) =
      (if m = new_line_for state m lv
       then some (pre ++ new_line_for state m lv :: suf, false, [])
       else some (pre ++ new_line_for state m lv :: deleteActive var suf, true,
                  "var changed".data)) := by
  induction pre with
  | nil => simp [scanUpdate, hm]
  | cons p ps ih =>
    have hp : match_var var p = false := hpre p (List.mem_cons_self p ps)
    have ih' := ih (fun l hl => hpre l (List.mem_cons_of_mem p hl))
    by_cases hmn : m = new_line_for state m lv
    · rw [if_pos hmn] at ih' ⊢
      simp [scanUpdate, hp, ih']
    · rw [if_neg hmn] at ih' ⊢
      simp [scanUpdate, hp, ih']

theorem scanUpdate_clean (var lv : List Char) (state : VarState) (ls : List (List Char))
    (hall : ∀ l ∈ ls, match_var var l = false) :
    scanUpdate var lv state ls = none := by
  induction ls with
  | nil => rfl
  | cons p ps ih =>
    have hp : match_var var p = false := hall p (List.mem_cons_self p ps)
    have ih' := ih (fun l hl => hall l (List.mem_cons_of_mem p hl))
    simp [scanUpdate, hp, ih']

theorem scanUpdate_none_inv (var lv : List Char) (state : VarState) :
    ∀ ls : List (List Char), scanUpdate var lv state ls = none →
      ∀ l ∈ ls, match_var var l = false := by
  intro ls
  induction ls with
  | nil => intro _ l hl; exact absurd hl (List.not_mem_nil l)
  | cons c rest ih =>
    intro h l hl
    by_cases hc : match_var var c = true
    · exfalso
      rw [scanUpdate.eq_def] at h
      simp [hc] at h
      split at h <;> exact Option.noConfusion h
    · have hc' : match_var var c = false := by simpa using hc
      rcases List.mem_cons.mp hl with rfl | hl'
      · exact hc'
      · apply ih _ l hl'
        rw [scanUpdate.eq_def] at h
        simp [hc'] at h
        cases e : scanUpdate var lv state rest with
        | none => rfl
        | some o =>
          rw [e] at h
          obtain ⟨a, b, mm⟩ := o
          exact Option.noConfusion h

theorem scanUpdate_some_inv (var lv : List Char) (state : VarState) :
    ∀ (ls : List (List Char)) (out : List (List Char) × Bool × List Char),
      scanUpdate var lv state ls = some out →
      ∃ (pre : List (List Char)) (m : List Char) (suf : List (List Char)),
        ls = pre ++ m :: suf ∧
        (∀ l ∈ pre, match_var var l = false) ∧
        match_var var m = true ∧
        out = (if m = new_line_for state m lv
               then (pre ++ new_line_for state m lv :: suf, false, ([] : List Char))
               else (pre ++ new_line_for state m lv :: deleteActive var suf, true,
                     "var changed".data)) := by
  intro ls
  induction ls with
  | nil => intro out h; exact Option.noConfusion h
  | cons c rest ih =>
    intro out h
    by_cases hc : match_var var c = true
    · refine ⟨[], c, rest, by simp, by simp, hc, ?_⟩
      rw [scanUpdate.eq_def] at h
      simp [hc] at h
      by_cases hmn : c = new_line_for state c lv
      · rw [if_pos hmn] at h ⊢
        simp at h
        simp [← h]
      · rw [if_neg hmn] at h ⊢
        simp at h
        simp [← h]
    · have hc' : match_var var c = false := by simpa using hc
      rw [scanUpdate.eq_def] at h
      simp [hc'] at h
      cases e : scanUpdate var lv state rest with
      | none =>
        rw [e] at h
        exact Option.noConfusion h
      | some o =>
        rw [e] at h
        obtain ⟨a, b, mm⟩ := o
        simp at h
        obtain ⟨pre, m, suf, hls, hpre, hm, hout⟩ := ih (a, b, mm) e
        refine ⟨c :: pre, m, suf, by simp [hls], ?_, hm, ?_⟩
        · intro l hl
          rcases List.mem_cons.mp hl with rfl | hl'
          · exact hc'
          · exact hpre l hl'
        · by_cases hmn : m = new_line_for state m lv
          · rw [if_pos hmn] at hout ⊢
            simp only [Prod.mk.injEq] at hout
            obtain ⟨ha, hb, hm2⟩ := hout
            subst ha
            subst hb
            subst hm2
            rw [← h]
            simp
          · rw [if_neg hmn] at hout ⊢
            simp only [Prod.mk.injEq] at hout
            obtain ⟨ha, hb, hm2⟩ := hout
            subst ha
            subst hb
            subst hm2
            rw [← h]
            simp

/-! ### Unfolding `apply` and `applyCore` -/

theorem apply_eq_core (lines : List (List Char)) (var val : List Char) (state : VarState)
    (h0 : lines ≠ []) (h1 : lastCharIsNewline (lastLine lines) = true) :
    apply lines var val state = some (applyCore lines var val state) := by
  cases lines with
  | nil => exact absurd rfl h0
  | cons a l => simp [apply, h1]

theorem applyCore_update_some (env : List (List Char)) (var val : List Char)
    (state : VarState) (ols : List (List Char)) (och : Bool) (om : List Char)
    (hst : state ≠ VarState.absent)
    (e : scanUpdate var (var ++ '=' :: (shell_escape val ++ ['\n'])) state env
          = some (ols, och, om)) :
    applyCore env var val state = ⟨ols, och, om⟩ := by
  cases state with
  | absent => exact absurd rfl hst
  | present => simp [applyCore, e]
  | loc => simp [applyCore, e]
  | exported => simp [applyCore, e]

theorem applyCore_update_none (env : List (List Char)) (var val : List Char)
    (state : VarState)
    (hst : state ≠ VarState.absent)
    (e : scanUpdate var (var ++ '=' :: (shell_escape val ++ ['\n'])) state env = none) :
    applyCore env var val state =
      ⟨env ++ [if state = VarState.loc then var ++ '=' :: (shell_escape val ++ ['\n'])
               else "export ".data ++ (var ++ '=' :: (shell_escape val ++ ['\n']))],
       true, "var added".data⟩ := by
  cases state with
  | absent => exact absurd rfl hst
  | present => simp [applyCore, e]
  | loc => simp [applyCore, e]
  | exported => simp [applyCore, e]

theorem applyCore_absent (env : List (List Char)) (var val : List Char)
    (ols : List (List Char)) (och : Bool) (om : List Char)
    (e : scanAbsent var env = (ols, och, om)) :
    applyCore env var val VarState.absent = ⟨ols, och, om⟩ := by
  simp [applyCore, e]

/-! ### Stability of the rewritten line under a second run -/

theorem lastChar_lv (var esc : List Char) :
    lastCharIsNewline (var ++ '=' :: (esc ++ ['\n'])) = true := by
  have h := lastChar_append_newline (var ++ '=' :: esc)
  simpa using h

theorem lastChar_new_line_for (state : VarState) (m var esc : List Char) :
    lastCharIsNewline (new_line_for state m (var ++ '=' :: (esc ++ ['\n']))) = true := by
  simp only [new_line_for]
  split
  · exact lastChar_concat "export ".data _ (lastChar_lv var esc)
  · exact lastChar_lv var esc

theorem match_var_new_line (state : VarState) (m var val : List Char)
    (hval : '\n' ∉ val) :
    match_var var (new_line_for state m (var ++ '=' :: (shell_escape val ++ ['\n'])))
      = true := by
  have he := shell_escape_no_newline val hval
  simp only [new_line_for]
  split
  · exact match_var_export var (shell_escape val) he
  · exact match_var_plain var (shell_escape val) he

theorem new_line_for_stable (state : VarState) (m var val : List Char)
    (hst : state ≠ VarState.absent) (hv : '\n' ∉ var) (hval : '\n' ∉ val)
    (hpres : state = VarState.present →
      exportKw.isPrefixOf (var.dropWhile isSpace) = false) :
    new_line_for state (new_line_for state m (var ++ '=' :: (shell_escape val ++ ['\n'])))
        (var ++ '=' :: (shell_escape val ++ ['\n']))
      = new_line_for state m (var ++ '=' :: (shell_escape val ++ ['\n'])) := by
  have he := shell_escape_no_newline val hval
  cases state with
  | absent => exact absurd rfl hst
  | exported => simp [new_line_for]
  | loc => simp [new_line_for]
  | present =>
    by_cases hm : is_exported m = true
    · have hinner : new_line_for VarState.present m
          (var ++ '=' :: (shell_escape val ++ ['\n']))
          = "export ".data ++ (var ++ '=' :: (shell_escape val ++ ['\n'])) := by
        simp [new_line_for, hm]
      rw [hinner]
      have hexp := is_exported_export_line var (shell_escape val) hv he
      simp only [new_line_for]
      rw [hexp, if_pos rfl]
    · have hm' : is_exported m = false := by simpa using hm
      have hinner : new_line_for VarState.present m
          (var ++ '=' :: (shell_escape val ++ ['\n']))
          = var ++ '=' :: (shell_escape val ++ ['\n']) := by
        simp [new_line_for, hm']
      rw [hinner]
      have hplain := is_exported_plain_false var (shell_escape val ++ ['\n']) (hpres rfl)
      simp only [new_line_for]
      rw [hplain, if_neg (show ¬(false = true) by decide)]

/-! ### A second run after a non-`absent` run changes nothing -/

theorem applyCore_idem (env : List (List Char)) (var val : List Char) (state : VarState)
    (hst : state ≠ VarState.absent)
    (henvnl : ∀ l ∈ env, lastCharIsNewline l = true)
    (hv : '\n' ∉ var) (hval : '\n' ∉ val)
    (hpres : state = VarState.present →
      exportKw.isPrefixOf (var.dropWhile isSpace) = false) :
    apply (applyCore env var val state).lines var val state =
      some ⟨(applyCore env var val state).lines, false, []⟩ := by
  have he := shell_escape_no_newline val hval
  cases e : scanUpdate var (var ++ '=' :: (shell_escape val ++ ['\n'])) state env with
  | none =>
    rw [applyCore_update_none env var val state hst e]
    set nlA := (if state = VarState.loc then var ++ '=' :: (shell_escape val ++ ['\n'])
                else "export ".data ++ (var ++ '=' :: (shell_escape val ++ ['\n'])))
      with hnlA
    have hclean := scanUpdate_none_inv var _ state env e
    have hnlAnl : lastCharIsNewline nlA = true := by
      rw [hnlA]
      split
      · exact lastChar_lv var (shell_escape val)
      · exact lastChar_concat "export ".data _ (lastChar_lv var (shell_escape val))
    have hWne : env ++ [nlA] ≠ [] := by simp
    have hWnl : ∀ l ∈ env ++ [nlA], lastCharIsNewline l = true := by
      intro l hl
      rcases List.mem_append.mp hl with h | h
      · exact henvnl l h
      · rw [List.mem_singleton.mp h]
        exact hnlAnl
    show apply (env ++ [nlA]) var val state = some ⟨env ++ [nlA], false, []⟩
    rw [apply_eq_core _ var val state hWne (hWnl _ (lastLine_mem _ hWne))]
    have hm : match_var var nlA = true := by
      rw [hnlA]
      split
      · exact match_var_plain var (shell_escape val) he
      · exact match_var_export var (shell_escape val) he
    have hsu := scanUpdate_split var (var ++ '=' :: (shell_escape val ++ ['\n'])) state
      env nlA [] hclean hm
    have hstab : new_line_for state nlA (var ++ '=' :: (shell_escape val ++ ['\n']))
        = nlA := by
      cases state with
      | absent => exact absurd rfl hst
      | exported =>
        rw [hnlA, if_neg (show ¬(VarState.exported = VarState.loc) by decide)]
        simp [new_line_for]
      | loc =>
        rw [hnlA, if_pos rfl]
        simp [new_line_for]
      | present =>
        rw [hnlA, if_neg (show ¬(VarState.present = VarState.loc) by decide)]
        have hexp := is_exported_export_line var (shell_escape val) hv he
        simp only [new_line_for]
        rw [hexp, if_pos rfl]
    rw [hstab, if_pos rfl] at hsu
    rw [applyCore_update_some (env ++ [nlA]) var val state (env ++ [nlA]) false []
      hst hsu]
  | some out =>
    obtain ⟨ols, och, om⟩ := out
    obtain ⟨pre, m, suf, hls, hpre, hm, hout⟩ :=
      scanUpdate_some_inv var _ state env (ols, och, om) e
    rw [applyCore_update_some env var val state ols och om hst e]
    by_cases hmn : m = new_line_for state m (var ++ '=' :: (shell_escape val ++ ['\n']))
    · rw [if_pos hmn] at hout
      simp only [Prod.mk.injEq] at hout
      obtain ⟨h1, h2, h3⟩ := hout
      subst h1
      subst h2
      subst h3
      show apply (pre ++ new_line_for state m
          (var ++ '=' :: (shell_escape val ++ ['\n'])) :: suf) var val state = _
      rw [← hmn, ← hls]
      have henvne : env ≠ [] := by rw [hls]; simp
      rw [apply_eq_core env var val state henvne (henvnl _ (lastLine_mem env henvne))]
      rw [applyCore_update_some env var val state _ false [] hst e]
      rw [← hmn, ← hls]
    · rw [if_neg hmn] at hout
      simp only [Prod.mk.injEq] at hout
      obtain ⟨h1, h2, h3⟩ := hout
      subst h1
      subst h2
      subst h3
      have hWne : pre ++ new_line_for state m
          (var ++ '=' :: (shell_escape val ++ ['\n'])) :: deleteActive var suf ≠ [] := by
        simp
      have hWnl : ∀ l ∈ pre ++ new_line_for state m
          (var ++ '=' :: (shell_escape val ++ ['\n'])) :: deleteActive var suf,
          lastCharIsNewline l = true := by
        intro l hl
        rcases List.mem_append.mp hl with h | h
        · exact henvnl l (by rw [hls]; exact List.mem_append_left _ h)
        · rcases List.mem_cons.mp h with rfl | h'
          · exact lastChar_new_line_for state m var (shell_escape val)
          · rw [deleteActive] at h'
            have hsuf : l ∈ suf := (List.mem_filter.mp h').1
            exact henvnl l
              (by rw [hls]; exact List.mem_append_right _ (List.mem_cons_of_mem m hsuf))
      show apply (pre ++ new_line_for state m
          (var ++ '=' :: (shell_escape val ++ ['\n'])) :: deleteActive var suf)
            var val state = _
      rw [apply_eq_core _ var val state hWne (hWnl _ (lastLine_mem _ hWne))]
      have hmnl := match_var_new_line state m var val hval
      have hsu := scanUpdate_split var (var ++ '=' :: (shell_escape val ++ ['\n'])) state
        pre (new_line_for state m (var ++ '=' :: (shell_escape val ++ ['\n'])))
        (deleteActive var suf) hpre hmnl
      have hstab := new_line_for_stable state m var val hst hv hval hpres
      rw [hstab, if_pos rfl] at hsu
      rw [applyCore_update_some _ var val state _ false [] hst hsu]

/-! ### The rewritten line in the specification's phrasing -/

theorem new_line_for_eq_decl (state : VarState) (m var val : List Char) :
    new_line_for state m (var ++ '=' :: (shell_escape val ++ ['\n']))
      = newDeclLine state m var val := by
  cases state with
  | exported => simp [new_line_for, newDeclLine]
  | absent => simp [new_line_for, newDeclLine]
  | loc => simp [new_line_for, newDeclLine]
  | present =>
    by_cases hm : is_exported m = true
    · simp [new_line_for, newDeclLine, hm]
    · have hm' : is_exported m = false := by simpa using hm
      simp [new_line_for, newDeclLine, hm']

theorem match_active_var_new_line (state : VarState) (m var val : List Char)
    (hval : '\n' ∉ val) :
    match_active_var var
      (new_line_for state m (var ++ '=' :: (shell_escape val ++ ['\n']))) = true := by
  have he := shell_escape_no_newline val hval
  simp only [new_line_for]
  split
  · exact match_active_var_export var (shell_escape val) he
  · exact match_active_var_plain var (shell_escape val) he

/-! ### End-to-end behaviour of `apply` on decomposed inputs -/

theorem apply_found (var val : List Char) (state : VarState)
    (pre : List (List Char)) (m : List Char) (suf : List (List Char))
    (hst : state ≠ VarState.absent)
    (hpre : ∀ l ∈ pre, match_var var l = false)
    (hm : match_var var m = true)
    (hlast : lastCharIsNewline (lastLine (pre ++ m :: suf)) = true) :
    apply (pre ++ m :: suf) var val state =
      (if m = newDeclLine state m var val
       then some ⟨pre ++ m :: suf, false, []⟩
       else some ⟨pre ++ newDeclLine state m var val :: deleteActive var suf, true,
                  "var changed".data⟩) := by
  have hne : pre ++ m :: suf ≠ [] := by simp
  rw [apply_eq_core _ var val state hne hlast]
  have hsu := scanUpdate_split var (var ++ '=' :: (shell_escape val ++ ['\n'])) state
    pre m suf hpre hm
  rw [new_line_for_eq_decl] at hsu
  by_cases hmn : m = newDeclLine state m var val
  · rw [if_pos hmn] at hsu ⊢
    rw [applyCore_update_some _ var val state _ false [] hst hsu]
    rw [← hmn]
  · rw [if_neg hmn] at hsu ⊢
    rw [applyCore_update_some _ var val state _ true ("var changed".data) hst hsu]

theorem apply_notfound (var val : List Char) (state : VarState)
    (lines : List (List Char))
    (hst : state ≠ VarState.absent)
    (hall : ∀ l ∈ lines, match_var var l = false)
    (hne : lines ≠ [])
    (hlast : lastCharIsNewline (lastLine lines) = true) :
    apply lines var val state =
      some ⟨lines ++ [if state = VarState.loc then var ++ '=' :: (shell_escape val ++ ['\n'])
                      else "export ".data ++ (var ++ '=' :: (shell_escape val ++ ['\n']))],
            true, "var added".data⟩ := by
  rw [apply_eq_core lines var val state hne hlast]
  rw [applyCore_update_none lines var val state hst
    (scanUpdate_clean var _ state lines hall)]

theorem apply_absent_found (var val : List Char)
    (pre : List (List Char)) (m : List Char) (suf : List (List Char))
    (hpre : ∀ l ∈ pre, match_active_var var l = false)
    (hm : match_active_var var m = true)
    (hlast : lastCharIsNewline (lastLine (pre ++ m :: suf)) = true) :
    apply (pre ++ m :: suf) var val VarState.absent
      = some ⟨pre ++ suf, true, "var removed".data⟩ := by
  have hne : pre ++ m :: suf ≠ [] := by simp
  rw [apply_eq_core _ var val VarState.absent hne hlast]
  rw [applyCore_absent _ var val _ _ _ (scanAbsent_split var pre m suf hpre hm)]

theorem apply_absent_notfound (var val : List Char) (lines : List (List Char))
    (hall : ∀ l ∈ lines, match_active_var var l = false)
    (hne : lines ≠ [])
    (hlast : lastCharIsNewline (lastLine lines) = true) :
    apply lines var val VarState.absent = some ⟨lines, false, []⟩ := by
  rw [apply_eq_core lines var val VarState.absent hne hlast]
  rw [applyCore_absent lines var val _ _ _ (scanAbsent_clean var lines hall)]

/-! ### Facts about `shell_escape` -/

theorem pyReplaceQuote_eq_bind (v : List Char) :
    pyReplaceQuote v = v.flatMap (fun c => if c = '\'' then quoteRep else [c]) := by
  induction v with
  | nil => rfl
  | cons c rest ih => simp [pyReplaceQuote, ih]

theorem pyReplaceQuote_no_quote (v : List Char) (h : '\'' ∉ v) : pyReplaceQuote v = v := by
  induction v with
  | nil => rfl
  | cons c rest ih =>
    have hc : c ≠ '\'' := fun e => h (e ▸ List.mem_cons_self c rest)
    have hr := ih (fun mm => h (List.mem_cons_of_mem c mm))
    simp [pyReplaceQuote, hc, hr]

/-! ## The claims -/

/-- C1, counterexample: idempotence fails as universally stated.  With
`state = absent`, only the first active `FOO` assignment is removed, so the
second run on the first run's output removes the next one and reports
`changed = true` with a different line sequence, where the claim demands
`changed = false` and byte-identical output. -/
theorem c1_counterexample :
    apply ["FOO=a\n".data, "FOO=b\n".data] "FOO".data [] VarState.absent
        = some ⟨["FOO=b\n".data], true, "var removed".data⟩ ∧
      apply ["FOO=b\n".data] "FOO".data [] VarState.absent
        = some ⟨[], true, "var removed".data⟩ := by
  constructor <;> decide

/-- C1, amended: for the rewriting states (`present`, `local`, `exported`),
`apply` is idempotent whenever every input line ends in a newline, neither
the variable name nor the value contains a newline, and — under `present` —
the name does not itself begin (after leading whitespace) with the literal
characters `export` (otherwise the loose `is_exported` pattern
re-classifies the freshly written unexported line as exported on the next
run): the second run returns `changed = false`, an empty message, and the
first run's line sequence unchanged. -/
theorem c1_amended_idempotence (lines : List (List Char)) (var val : List Char)
    (state : VarState)
    (hst : state ≠ VarState.absent)
    (hnl : ∀ l ∈ lines, lastCharIsNewline l = true)
    (hv : '\n' ∉ var) (hval : '\n' ∉ val)
    (hpres : state = VarState.present →
      exportKw.isPrefixOf (var.dropWhile isSpace) = false) :
    ∃ r : ApplyResult, apply lines var val state = some r ∧
      apply r.lines var val state = some ⟨r.lines, false, []⟩ := by
  by_cases hemp : lines = []
  · subst hemp
    refine ⟨applyCore [['\n']] var val state, ?_, ?_⟩
    · simp [apply, lastLine, lastCharIsNewline]
    · exact applyCore_idem [['\n']] var val state hst
        (by intro l hl; rw [List.mem_singleton.mp hl]; rfl) hv hval hpres
  · exact ⟨applyCore lines var val state,
      apply_eq_core lines var val state hemp (hnl _ (lastLine_mem lines hemp)),
      applyCore_idem lines var val state hst hnl hv hval hpres⟩

/-- C1, witness for the amended theorem at a concrete input. -/
theorem c1_amended_witness :
    (VarState.present ≠ VarState.absent) ∧
    (∀ l ∈ ["FOO=old\n".data], lastCharIsNewline l = true) ∧
    ('\n' ∉ "FOO".data) ∧ ('\n' ∉ "new".data) ∧
    (VarState.present = VarState.present →
      exportKw.isPrefixOf ("FOO".data.dropWhile isSpace) = false) ∧
    (∃ r : ApplyResult,
      apply ["FOO=old\n".data] "FOO".data "new".data VarState.present = some r ∧
      apply r.lines "FOO".data "new".data VarState.present
        = some ⟨r.lines, false, []⟩) :=
  ⟨by decide, by decide, by decide, by decide, by decide,
   c1_amended_idempotence ["FOO=old\n".data] "FOO".data "new".data VarState.present
     (by decide) (by decide) (by decide) (by decide) (by decide)⟩

/-- C2: the claim says the core is total and normalises a missing final
newline by appending one with `changed = true`; the code instead executes
`ini_lines[-1] += '\n'` on that path, and `ini_lines` is an undefined name,
so Python raises `NameError` (modelled as `none`).  Evaluation of the core
at the failing input. -/
theorem c2_unterminated_last_line_bug :
    apply ["FOO=1".data] "FOO".data "bar".data VarState.present = none := by decide

/-- C3: `shell_escape` always wraps the value in single quotes — even a
value with no special characters — and replaces each embedded single quote
by the 4-character sequence quote, backslash, quote, quote; in particular
the value `it's` escapes to `'it'\''s'`. -/
theorem c3_shell_escape_quoting :
    shell_escape "it's".data = "'it'\\''s'".data ∧
    (∀ v : List Char, shell_escape v
        = '\'' :: (v.flatMap (fun c => if c = '\'' then "'\\''".data else [c]) ++ ['\''])) ∧
    (∀ v : List Char, '\'' ∉ v → shell_escape v = '\'' :: (v ++ ['\''])) := by
  refine ⟨by decide, ?_, ?_⟩
  · intro v
    simp [shell_escape, pyReplaceQuote_eq_bind, quoteRep]
  · intro v hv
    simp [shell_escape, pyReplaceQuote_no_quote v hv]

/-- C3, witness: a value with no special characters is still quoted. -/
theorem c3_witness : shell_escape "abc".data = "'abc'".data := by
  have h := c3_shell_escape_quoting.2.2 "abc".data (by decide)
  simpa using h

/-- C4, counterexample: the claim requires `is_exported` to be true only
when `export` is followed by at least one whitespace character, but the
source pattern `^\s*export\s*.+$` accepts `export` followed directly by
more text: `exportFOO=1` is classified as exported. -/
theorem c4_counterexample :
    is_exported "exportFOO=1\n".data = true ∧
      isExported_claimed "exportFOO=1\n".data = false := by
  constructor <;> decide

/-- C4, amended: `is_exported(line)` is true iff the line, after leading
whitespace, begins with `export` followed by OPTIONAL whitespace and then
at least one further character (no newline before a final one) — the
whitespace after `export` is not required. -/
theorem c4_amended (line : List Char) : is_exported line = isExported_actual line := by
  rw [is_exported_eq_dropWhile]
  rfl

/-- C5: when a first `match_var` line exists, the line replacing it is
`newDeclLine` — `<var>=<shell_escape(val)>\n` carrying the `export ` prefix
exactly when `state = exported`, or `state = present` and the matched line
was `is_exported` (under `local` the condition is false, so never). -/
theorem c5_export_of_replacement (pre : List (List Char)) (m : List Char)
    (suf : List (List Char)) (var val : List Char) (state : VarState)
    (hst : state ≠ VarState.absent)
    (hpre : ∀ l ∈ pre, match_var var l = false)
    (hm : match_var var m = true)
    (hlast : lastCharIsNewline (lastLine (pre ++ m :: suf)) = true) :
    ∃ (tail : List (List Char)) (ch : Bool) (msg : List Char),
      apply (pre ++ m :: suf) var val state
        = some ⟨pre ++ newDeclLine state m var val :: tail, ch, msg⟩ := by
  rw [apply_found var val state pre m suf hst hpre hm hlast]
  by_cases hmn : m = newDeclLine state m var val
  · rw [if_pos hmn]
    exact ⟨suf, false, [], by rw [← hmn]⟩
  · rw [if_neg hmn]
    exact ⟨deleteActive var suf, true, "var changed".data, rfl⟩

/-- C5, witness: updating `FOO=old\n` with `present` keeps it unexported. -/
theorem c5_witness :
    (VarState.present ≠ VarState.absent) ∧
    (∀ l ∈ ([] : List (List Char)), match_var "FOO".data l = false) ∧
    match_var "FOO".data "FOO=old\n".data = true ∧
    lastCharIsNewline (lastLine ([] ++ "FOO=old\n".data :: [])) = true ∧
    (∃ (tail : List (List Char)) (ch : Bool) (msg : List Char),
      apply ([] ++ "FOO=old\n".data :: []) "FOO".data "new".data VarState.present
        = some ⟨[] ++ newDeclLine VarState.present "FOO=old\n".data "FOO".data "new".data
                        :: tail, ch, msg⟩) :=
  ⟨by decide, by decide, by decide, by decide,
   c5_export_of_replacement [] "FOO=old\n".data [] "FOO".data "new".data VarState.present
     (by decide) (by decide) (by decide) (by decide)⟩

/-- C6, counterexample: on the empty line sequence (no active match
anywhere) `apply` with `absent` does not return the sequence unchanged —
the empty-file guard turns it into a single newline line. -/
theorem c6_counterexample :
    apply [] "FOO".data [] VarState.absent = some ⟨[['\n']], false, []⟩ ∧
      ([['\n']] : List (List Char)) ≠ [] := by
  constructor <;> decide

/-- C6, amended: for every NONEMPTY line sequence whose last line ends in a
newline, `absent` deletes exactly the first `match_active_var` line,
reports `changed = true` with message `var removed`, and leaves every other
line unchanged; with no active match the sequence is returned unchanged
with `changed = false`. -/
theorem c6_absent_amended (lines : List (List Char)) (var val : List Char)
    (hne : lines ≠ [])
    (hlast : lastCharIsNewline (lastLine lines) = true) :
    (∀ (pre : List (List Char)) (m : List Char) (suf : List (List Char)),
        lines = pre ++ m :: suf →
        (∀ l ∈ pre, match_active_var var l = false) →
        match_active_var var m = true →
        apply lines var val VarState.absent
          = some ⟨pre ++ suf, true, "var removed".data⟩) ∧
      ((∀ l ∈ lines, match_active_var var l = false) →
        apply lines var val VarState.absent = some ⟨lines, false, []⟩) := by
  constructor
  · intro pre m suf hls hpre hm
    subst hls
    exact apply_absent_found var val pre m suf hpre hm hlast
  · intro hall
    exact apply_absent_notfound var val lines hall hne hlast

/-- C6, witness: only the first of two active `FOO` assignments is
removed. -/
theorem c6_witness :
    (["FOO=a\n".data, "FOO=b\n".data] ≠ ([] : List (List Char))) ∧
    lastCharIsNewline (lastLine ["FOO=a\n".data, "FOO=b\n".data]) = true ∧
    apply ["FOO=a\n".data, "FOO=b\n".data] "FOO".data [] VarState.absent
      = some ⟨[] ++ ["FOO=b\n".data], true, "var removed".data⟩ :=
  ⟨by decide, by decide,
   (c6_absent_amended ["FOO=a\n".data, "FOO=b\n".data] "FOO".data []
       (by decide) (by decide)).1
     [] "FOO=a\n".data ["FOO=b\n".data] (by decide) (by decide) (by decide)⟩

/-- C7: when the replacement of the first `match_var` line differs from the
original, every later `match_active_var` line is deleted (the filter over
the suffix); when the replacement equals the original, nothing is
deleted. -/
theorem c7_duplicate_cleanup (pre : List (List Char)) (m : List Char)
    (suf : List (List Char)) (var val : List Char) (state : VarState)
    (hst : state ≠ VarState.absent)
    (hpre : ∀ l ∈ pre, match_var var l = false)
    (hm : match_var var m = true)
    (hlast : lastCharIsNewline (lastLine (pre ++ m :: suf)) = true) :
    apply (pre ++ m :: suf) var val state =
      (if m = newDeclLine state m var val
       then some ⟨pre ++ m :: suf, false, []⟩
       else some ⟨pre ++ newDeclLine state m var val ::
                    suf.filter (fun l => !match_active_var var l), true,
                  "var changed".data⟩) := by
  rw [apply_found var val state pre m suf hst hpre hm hlast]
  rfl

/-- C7, witness: the changed primary match prunes the duplicate. -/
theorem c7_witness :
    (VarState.present ≠ VarState.absent) ∧
    (∀ l ∈ ([] : List (List Char)), match_var "FOO".data l = false) ∧
    match_var "FOO".data "FOO=old\n".data = true ∧
    lastCharIsNewline (lastLine ([] ++ "FOO=old\n".data :: ["FOO=dup\n".data])) = true ∧
    apply ([] ++ "FOO=old\n".data :: ["FOO=dup\n".data]) "FOO".data "new".data
        VarState.present =
      (if "FOO=old\n".data
          = newDeclLine VarState.present "FOO=old\n".data "FOO".data "new".data
       then some ⟨[] ++ "FOO=old\n".data :: ["FOO=dup\n".data], false, []⟩
       else some ⟨[] ++ newDeclLine VarState.present "FOO=old\n".data "FOO".data "new".data
                    :: ["FOO=dup\n".data].filter (fun l => !match_active_var "FOO".data l),
                  true, "var changed".data⟩) :=
  ⟨by decide, by decide, by decide, by decide,
   c7_duplicate_cleanup [] "FOO=old\n".data ["FOO=dup\n".data] "FOO".data "new".data
     VarState.present (by decide) (by decide) (by decide) (by decide)⟩

/-- C8: with no `match_var` line anywhere, `apply` appends
`<var>=<shell_escape(val)>\n` at the end, prefixed with `export ` unless
`state = local`, and reports `changed = true` with message `var added`. -/
theorem c8_add_when_absent (lines : List (List Char)) (var val : List Char)
    (state : VarState)
    (hst : state ≠ VarState.absent)
    (hall : ∀ l ∈ lines, match_var var l = false)
    (hne : lines ≠ [])
    (hlast : lastCharIsNewline (lastLine lines) = true) :
    apply lines var val state =
      some ⟨lines ++ [(if state = VarState.loc then [] else "export ".data)
                       ++ (var ++ '=' :: (shell_escape val ++ ['\n']))],
            true, "var added".data⟩ := by
  rw [apply_notfound var val state lines hst hall hne hlast]
  by_cases hl : state = VarState.loc
  · rw [if_pos hl, if_pos hl]
    rfl
  · rw [if_neg hl, if_neg hl]

/-- C8, witness: `apply(["X=1\n"], FOO, bar, present)` appends
`export FOO='bar'\n`. -/
theorem c8_witness :
    (VarState.present ≠ VarState.absent) ∧
    (∀ l ∈ ["X=1\n".data], match_var "FOO".data l = false) ∧
    (["X=1\n".data] ≠ ([] : List (List Char))) ∧
    lastCharIsNewline (lastLine ["X=1\n".data]) = true ∧
    apply ["X=1\n".data] "FOO".data "bar".data VarState.present =
      some ⟨["X=1\n".data] ++
              [(if VarState.present = VarState.loc then [] else "export ".data)
                ++ ("FOO".data ++ '=' :: (shell_escape "bar".data ++ ['\n']))],
            true, "var added".data⟩ :=
  ⟨by decide, by decide, by decide, by decide,
   c8_add_when_absent ["X=1\n".data] "FOO".data "bar".data VarState.present
     (by decide) (by decide) (by decide) (by decide)⟩

/-- C9: a commented declaration is a valid first match site; the rewritten
line is an active (un-commented) assignment, and — since a commented line
can never equal the active replacement — the result is always reported
changed. -/
theorem c9_commented_activation (pre : List (List Char)) (m : List Char)
    (suf : List (List Char)) (var val : List Char) (state : VarState)
    (hst : state ≠ VarState.absent)
    (hpre : ∀ l ∈ pre, match_var var l = false)
    (hm : match_var var m = true)
    (hmact : match_active_var var m = false)
    (hval : '\n' ∉ val)
    (hlast : lastCharIsNewline (lastLine (pre ++ m :: suf)) = true) :
    apply (pre ++ m :: suf) var val state
        = some ⟨pre ++ newDeclLine state m var val :: deleteActive var suf, true,
                "var changed".data⟩ ∧
      match_active_var var (newDeclLine state m var val) = true := by
  have hact : match_active_var var (newDeclLine state m var val) = true := by
    rw [← new_line_for_eq_decl]
    exact match_active_var_new_line state m var val hval
  have hmn : m ≠ newDeclLine state m var val := by
    intro e
    rw [← e] at hact
    rw [hmact] at hact
    exact Bool.noConfusion hact
  rw [apply_found var val state pre m suf hst hpre hm hlast, if_neg hmn]
  exact ⟨rfl, hact⟩

/-- C9, witness: `apply(["#FOO=old\n"], FOO, new, present)` activates the
commented declaration. -/
theorem c9_witness :
    (VarState.present ≠ VarState.absent) ∧
    (∀ l ∈ ([] : List (List Char)), match_var "FOO".data l = false) ∧
    match_var "FOO".data "#FOO=old\n".data = true ∧
    match_active_var "FOO".data "#FOO=old\n".data = false ∧
    ('\n' ∉ "new".data) ∧
    lastCharIsNewline (lastLine ([] ++ "#FOO=old\n".data :: [])) = true ∧
    (apply ([] ++ "#FOO=old\n".data :: []) "FOO".data "new".data VarState.present
        = some ⟨[] ++ newDeclLine VarState.present "#FOO=old\n".data "FOO".data "new".data
                  :: deleteActive "FOO".data [], true, "var changed".data⟩ ∧
      match_active_var "FOO".data
        (newDeclLine VarState.present "#FOO=old\n".data "FOO".data "new".data) = true) :=
  ⟨by decide, by decide, by decide, by decide, by decide, by decide,
   c9_commented_activation [] "#FOO=old\n".data [] "FOO".data "new".data VarState.present
     (by decide) (by decide) (by decide) (by decide) (by decide) (by decide)⟩

/-- C10: under `present`, when the first matched line is a commented
declaration (its first non-whitespace character is `#`, as in
`#export FOO=old\n` or `# export FOO=old\n`), `is_exported` is false for
it, so the rewritten active line carries no `export ` prefix. -/
theorem c10_uncomment_drops_export (pre : List (List Char)) (m : List Char)
    (suf : List (List Char)) (var val : List Char)
    (hpre : ∀ l ∈ pre, match_var var l = false)
    (hm : match_var var m = true)
    (hhash : (m.dropWhile isSpace).head? = some '#')
    (hlast : lastCharIsNewline (lastLine (pre ++ m :: suf)) = true) :
    is_exported m = false ∧
    ∃ (tail : List (List Char)) (ch : Bool) (msg : List Char),
      apply (pre ++ m :: suf) var val VarState.present
        = some ⟨pre ++ (var ++ '=' :: (shell_escape val ++ ['\n'])) :: tail, ch, msg⟩ := by
  have hx := is_exported_hash m hhash
  have hdecl : newDeclLine VarState.present m var val
      = var ++ '=' :: (shell_escape val ++ ['\n']) := by
    simp [newDeclLine, hx]
  refine ⟨hx, ?_⟩
  rw [apply_found var val VarState.present pre m suf (by decide) hpre hm hlast]
  by_cases hmn : m = newDeclLine VarState.present m var val
  · rw [if_pos hmn]
    exact ⟨suf, false, [], by rw [hmn, hdecl]⟩
  · rw [if_neg hmn]
    exact ⟨deleteActive var suf, true, "var changed".data, by rw [hdecl]⟩

/-- C10, witness: `#export FOO=old\n` is rewritten without the `export `
prefix. -/
theorem c10_witness :
    (∀ l ∈ ([] : List (List Char)), match_var "FOO".data l = false) ∧
    match_var "FOO".data "#export FOO=old\n".data = true ∧
    (("#export FOO=old\n".data.dropWhile isSpace).head? = some '#') ∧
    lastCharIsNewline (lastLine ([] ++ "#export FOO=old\n".data :: [])) = true ∧
    (is_exported "#export FOO=old\n".data = false ∧
      ∃ (tail : List (List Char)) (ch : Bool) (msg : List Char),
        apply ([] ++ "#export FOO=old\n".data :: []) "FOO".data "new".data VarState.present
          = some ⟨[] ++ ("FOO".data ++ '=' :: (shell_escape "new".data ++ ['\n'])) :: tail,
                  ch, msg⟩) :=
  ⟨by decide, by decide, by decide, by decide,
   c10_uncomment_drops_export [] "#export FOO=old\n".data [] "FOO".data "new".data
     (by decide) (by decide) (by decide) (by decide)⟩

end EnvFile
